import Mathlib

/-!
# Verification of the roastme history/analysis core

Shallow embedding of `internal/history/history.go` and the analysis pass
(`AnalyzeHistory`) of the roastme repository, together with proofs settling
the specification claims about them.

Go strings are modelled as Lean `String` (sequences of Unicode scalar
values); byte-level Go operations (`len`, `strings.HasPrefix`,
`strings.Count`, slicing) are modelled through an explicit UTF-8 encoder
`goBytes`, so that byte semantics are kept faithfully.
-/

namespace Roastme

/-- UTF-8 encoding of one scalar value, as the list of its byte values.
Mirrors Go's string representation (Go source literals are UTF-8). -/
def utf8Bytes (c : Char) : List Nat :=
  let n := c.toNat
  if n < 0x80 then [n]
  else if n < 0x800 then
    [0xC0 ||| (n >>> 6), 0x80 ||| (n &&& 0x3F)]
  else if n < 0x10000 then
    [0xE0 ||| (n >>> 12), 0x80 ||| ((n >>> 6) &&& 0x3F), 0x80 ||| (n &&& 0x3F)]
  else
    [0xF0 ||| (n >>> 18), 0x80 ||| ((n >>> 12) &&& 0x3F),
     0x80 ||| ((n >>> 6) &&& 0x3F), 0x80 ||| (n &&& 0x3F)]

/-- The bytes of a Go string (UTF-8). -/
def goBytes (s : String) : List Nat := s.data.flatMap utf8Bytes

/-- Go `len(s)`: the byte length of a string. -/
def goLen (s : String) : Nat := (goBytes s).length

/-- Go `strings.HasPrefix(s, pre)`: byte-level prefix test. -/
def goHasPrefix (s pre : String) : Bool := (goBytes pre).isPrefixOf (goBytes s)

/-- Byte-list substring test (contiguous). -/
def bytesContain (hay needle : List Nat) : Bool :=
  needle.isPrefixOf hay ||
    match hay with
    | [] => false
    | _ :: t => bytesContain t needle

/-- Go `strings.Contains(s, sub)`: byte-level substring test. -/
def goContains (s sub : String) : Bool := bytesContain (goBytes s) (goBytes sub)

/-- Go `strings.Count(s, single-byte separator)`: number of occurrences of
the byte `b` in `s`. -/
def goCount (s : String) (b : Nat) : Nat := (goBytes s).count b

/-- Go `unicode.IsSpace`: '\t' '\n' '\v' '\f' '\r' ' ' U+0085 U+00A0 plus the
Unicode `White_Space` code points beyond Latin-1 (U+1680, U+2000–U+200A,
U+2028, U+2029, U+202F, U+205F, U+3000). -/
def goIsSpace (c : Char) : Bool :=
  let n := c.toNat
  n == 9 || n == 10 || n == 11 || n == 12 || n == 13 || n == 32 ||
  n == 0x85 || n == 0xA0 || n == 0x1680 ||
  (0x2000 ≤ n && n ≤ 0x200A) ||
  n == 0x2028 || n == 0x2029 || n == 0x202F || n == 0x205F || n == 0x3000

/-- Trim `goIsSpace` characters from both ends of a character list. -/
def trimChars (cs : List Char) : List Char :=
  ((cs.dropWhile goIsSpace).reverse.dropWhile goIsSpace).reverse

/-- Go `strings.TrimSpace`. -/
def trimSpace (s : String) : String := ⟨trimChars s.data⟩

/-- Splitting step for `goFields`: build the runs of non-space characters. -/
def fieldsStep (c : Char) (acc : List (List Char)) : List (List Char) :=
  if goIsSpace c then [] :: acc
  else
    match acc with
    | [] => [[c]]
    | t :: ts => (c :: t) :: ts

/-- Go `strings.Fields`: the maximal runs of non-`goIsSpace` characters,
in order. Every returned field is non-empty. -/
def goFields (s : String) : List String :=
  ((s.data.foldr fieldsStep []).filter (fun t => !t.isEmpty)).map (fun t => ⟨t⟩)

/-! ## The pattern analyzer (`internal/analysis`, `AnalyzeHistory`) -/

/-- `CommandCount` from the analysis package: a base command and its
occurrence count. Go declares `Count int`; it only ever holds tallies
starting from zero, so it is modelled as `Nat`. -/
structure CommandCount where
  Command : String
  Count : Nat
deriving DecidableEq

/-- `CommandPattern` from the analysis package. -/
structure CommandPattern where
  RepeatedCommands : List CommandCount
  FailedCommands : List String
  ComplexCommands : List String
  Indecisive : Bool
  TimeWasters : List String
  SkillLevel : String
deriving DecidableEq

/-- One `commandCounts[baseCmd]++` update on the tally, keeping the map as an
association list in first-insertion key order. -/
def bumpCount : List (String × Nat) → String → List (String × Nat)
  | [], c => [(c, 1)]
  | (k, n) :: rest, c =>
    if k = c then (k, n + 1) :: rest else (k, n) :: bumpCount rest c

/-- The `commandCounts` tally of `AnalyzeHistory`: for each command, take the
first whitespace field as base command (commands with no fields are skipped)
and count occurrences. Go stores this in a `map[string]int`, whose iteration
order is unspecified; the model keeps keys in first-insertion order. -/
def commandCounts (commands : List String) : List (String × Nat) :=
  commands.foldl
    (fun acc cmd =>
      match goFields cmd with
      | [] => acc
      | baseCmd :: _ => bumpCount acc baseCmd)
    []

/-- The repeated-commands pass: every tallied base command with
`count > 3 && cmd != ""`, in the map's iteration order (modelled as
first-insertion order; Go's actual map range order is unspecified). -/
def repeatedCommands (commands : List String) : List CommandCount :=
  ((commandCounts commands).filter
      (fun p => decide (3 < p.2) && !(p.1 == ""))).map
    (fun p => ⟨p.1, p.2⟩)

/-- The guard of the correction/failure pass on the previous command. -/
def isCorrectionCandidate (prev : String) : Bool :=
  goHasPrefix prev "cd " || goHasPrefix prev "mkdir " || goHasPrefix prev "git "

/-- Go `strings.HasPrefix(currCmd, prevCmd[:min(len(prevCmd), 4)])`: the
current command starts with the first `min(len(prev), 4)` BYTES of the
previous command. -/
def sharesPrefix4 (prev curr : String) : Bool :=
  ((goBytes prev).take (min (goBytes prev).length 4)).isPrefixOf (goBytes curr)

/-- The correction/failure pass of `AnalyzeHistory`: the loop
`for i := 1; i < len(commands); i++` over adjacent pairs. -/
def failedCommands : List String → List String
  | prev :: curr :: rest =>
    (if isCorrectionCandidate prev && sharesPrefix4 prev curr then [prev] else []) ++
      failedCommands (curr :: rest)
  | _ => []

/-- The complexity test: more than 2 `'|'` bytes, more than 2 `';'` bytes, or
byte length over 80 (Go `len`). Byte values: `'|'` = 124, `';'` = 59. -/
def isComplex (cmd : String) : Bool :=
  decide (2 < goCount cmd 124) || decide (2 < goCount cmd 59) ||
    decide (80 < goLen cmd)

/-- The complex-commands pass: qualifying commands in encounter order. -/
def complexCommands (commands : List String) : List String :=
  commands.filter isComplex

/-- The indecisiveness test on one command: prefix `"cd "`, prefix `"ls "`,
or the command is exactly `"ls"`. -/
def isNavCommand (cmd : String) : Bool :=
  goHasPrefix cmd "cd " || goHasPrefix cmd "ls " || cmd == "ls"

/-- The `cdLsCount` tally of `AnalyzeHistory`. -/
def cdLsCount (commands : List String) : Nat :=
  commands.foldl (fun n cmd => if isNavCommand cmd then n + 1 else n) 0

/-- The indecisiveness flag: Go compares
`float64(cdLsCount) > float64(len(commands))*0.4`. For every list length
below 2^51 the IEEE-754 double comparison agrees with the exact rational
comparison `5*count > 2*len` (at the exact 40% boundary the rounding error
of `0.4` stays under half an ulp of the product), so the flag is modelled by
the exact comparison. -/
def indecisive (commands : List String) : Bool :=
  decide (2 * commands.length < 5 * cdLsCount commands)

/-- ASCII lower-casing of one character. `strings.ToLower` applies the full
Unicode mapping, but both match vocabularies are ASCII and the handful of
non-ASCII code points that lower-case into ASCII cannot produce a vocabulary
word by themselves; the ASCII mapping is faithful for these passes. -/
def asciiLower (c : Char) : Char :=
  if 'A' ≤ c && c ≤ 'Z' then Char.ofNat (c.toNat + 32) else c

/-- Go `strings.ToLower`, restricted to the ASCII mapping (see `asciiLower`). -/
def goToLower (s : String) : String := ⟨s.data.map asciiLower⟩

/-- The fixed distraction-site vocabulary of `AnalyzeHistory`. -/
def timeWastersVocab : List String :=
  ["reddit", "youtube", "twitter", "facebook", "instagram"]

/-- The time-wasters pass: for each command (in order) and each vocabulary
word (in vocabulary order), record the word once if the lower-cased command
contains it and it was not recorded before. -/
def timeWastersOf (commands : List String) : List String :=
  commands.foldl
    (fun acc cmd =>
      timeWastersVocab.foldl
        (fun acc2 waster =>
          if goContains (goToLower cmd) waster && !acc2.contains waster then
            acc2 ++ [waster]
          else acc2)
        acc)
    []

/-- The fixed advanced-tooling vocabulary of `AnalyzeHistory`. -/
def advancedVocab : List String :=
  ["awk", "sed", "grep -E", "xargs", "find -exec", "docker", "kubernetes",
   "k8s", "kubectl"]

/-- The skill pass tally: commands whose lower-cased text contains at least
one advanced-vocabulary word (the inner loop `break`s at the first match,
so each command counts at most once). -/
def advancedCount (commands : List String) : Nat :=
  commands.foldl
    (fun n cmd =>
      if advancedVocab.any (fun adv => goContains (goToLower cmd) adv) then n + 1
      else n)
    0

/-- The skill-level thresholds of `AnalyzeHistory`. -/
def skillLevel (commands : List String) : String :=
  if 5 < advancedCount commands then "advanced"
  else if 2 < advancedCount commands then "intermediate"
  else "beginner"

/-- `AnalyzeHistory` from the analysis package: the sequence of independent
passes over the command list, assembled into a `CommandPattern`. -/
def analyzeHistory (commands : List String) : CommandPattern :=
  { RepeatedCommands := repeatedCommands commands
    FailedCommands := failedCommands commands
    ComplexCommands := complexCommands commands
    Indecisive := indecisive commands
    TimeWasters := timeWastersOf commands
    SkillLevel := skillLevel commands }

/-! ## The history reader (`internal/history/history.go`)

The file-system and environment boundary is abstracted: `os.Stat` becomes a
`fileExists : Bool` parameter, and the file content reaching
`bufio.Scanner` becomes the list of its lines (`ScanLines` tokens, newline
and trailing carriage return already stripped). Open errors and mid-read
device errors other than the scanner's token-size failure are outside the
model; the claims that use it assume a readable file. -/

/-- ASCII digit test (`\d` in Go's regexp only matches ASCII digits). -/
def isDigit (c : Char) : Bool := 48 ≤ c.toNat && c.toNat ≤ 57

/-- Try to match the zsh-history regexp `: \d+:\d+;(.*)` at the head of the
character list, returning the text captured by `(.*)` on success. A greedy
`\d+` followed by `:` (resp. `;`) is equivalent to a maximal non-empty digit
run followed by that character, since no shorter run can be followed by a
non-digit; `.` does not match a newline, so the capture stops at the first
`'\n'` (lines produced by the scanner contain none). -/
def zshMatchAt : List Char → Option (List Char)
  | ':' :: ' ' :: rest =>
    let ds := rest.takeWhile isDigit
    let rest1 := rest.dropWhile isDigit
    if ds.isEmpty then none
    else
      match rest1 with
      | ':' :: rest2 =>
        let ds2 := rest2.takeWhile isDigit
        let rest3 := rest2.dropWhile isDigit
        if ds2.isEmpty then none
        else
          match rest3 with
          | ';' :: rest4 => some (rest4.takeWhile (fun ch => ch != '\n'))
          | _ => none
      | _ => none
  | _ => none

/-- `regexp.FindStringSubmatch` for `: \d+:\d+;(.*)`: the leftmost position
where the pattern matches wins (the pattern starts with the ASCII byte `':'`,
so byte positions inside a multi-byte character can never start a match and
scanning character positions is faithful). -/
def zshFind : List Char → Option (List Char)
  | [] => none
  | c :: cs =>
    match zshMatchAt (c :: cs) with
    | some cap => some cap
    | none => zshFind cs

/-- `parseBashHistoryLine`: trim and accept every line. -/
def parseBashHistoryLine (line : String) : String × Bool :=
  (trimSpace line, true)

/-- `parseZshHistoryLine`: regexp capture if the pattern matches, otherwise
the remainder after the first `';'` (`strings.SplitN(line, ";", 2)`) if one
exists, otherwise the whole line; always trimmed, always accepted. -/
def parseZshHistoryLine (line : String) : String × Bool :=
  match zshFind line.data with
  | some cap => (trimSpace ⟨cap⟩, true)
  | none =>
    if line.data.contains ';' then
      (trimSpace ⟨(line.data.dropWhile (fun ch => ch != ';')).tail⟩, true)
    else
      (trimSpace line, true)

/-- Values a fish-history JSON field can take, as far as decoding into
`fishEntry{Cmd string; When int64}` distinguishes them. -/
inductive JsonVal where
  | str (s : List Char)
  | intv
  | nullv
  | other

/-- The single-character JSON escapes and what they decode to. -/
def escTable : List (Char × Char) :=
  [('"', '"'), ('\\', '\\'), ('/', '/'), ('n', '\n'), ('t', '\t'),
   ('r', '\r'), ('b', Char.ofNat 8), ('f', Char.ofNat 12)]

/-- Value of one hexadecimal digit (both cases), by code point arithmetic. -/
def hexDigitVal (c : Char) : Option Nat :=
  let n := c.toNat
  if 48 ≤ n ∧ n ≤ 57 then some (n - 48)
  else if 97 ≤ n ∧ n ≤ 102 then some (n - 87)
  else if 65 ≤ n ∧ n ≤ 70 then some (n - 55)
  else none

/-- The code point named by the four hex digits of a `\uXXXX` escape. -/
def hexQuad (a b c d : Char) : Option Nat :=
  match hexDigitVal a, hexDigitVal b, hexDigitVal c, hexDigitVal d with
  | some x, some y, some z, some w => some (x * 4096 + y * 256 + z * 16 + w)
  | _, _, _, _ => none

/-- JSON string body (after the opening quote): returns the decoded content
and the rest after the closing quote. Raw control characters and invalid
escapes fail, as in `encoding/json`; `\uXXXX` decodes the code point
(surrogate halves are rejected, so surrogate-pair decoding is out of the
model; no claim exercises it). -/
def jsonString : List Char → Option (List Char × List Char)
  | [] => none
  | c :: rest =>
    if c = '"' then some ([], rest)
    else if c = '\\' then
      match rest with
      | 'u' :: a :: b :: c2 :: d :: rest2 =>
        match hexQuad a b c2 d with
        | some n =>
          if n < 0xD800 ∨ 0xDFFF < n then
            (jsonString rest2).map (fun p => (Char.ofNat n :: p.1, p.2))
          else none
        | none => none
      | e :: rest2 =>
        match escTable.lookup e with
        | some decoded => (jsonString rest2).map (fun p => (decoded :: p.1, p.2))
        | none => none
      | [] => none
    else if c.toNat < 32 then none
    else (jsonString rest).map (fun p => (c :: p.1, p.2))

/-- Skip JSON whitespace (space, tab, newline, carriage return). -/
def skipJsonWs (cs : List Char) : List Char :=
  cs.dropWhile (fun c => c == ' ' || c == '\t' || c == '\n' || c == '\r')

/-- After the integer part of a JSON number: optional fraction and optional
exponent. The returned flag is false when either is present (the literal
then cannot decode into the `int64` field). -/
def jsonNumberTail (cs : List Char) : Option (Bool × List Char) :=
  let frac : Option (Bool × List Char) :=
    match cs with
    | '.' :: t =>
      if (t.takeWhile isDigit).isEmpty then none
      else some (false, t.dropWhile isDigit)
    | _ => some (true, cs)
  match frac with
  | none => none
  | some (isInt1, cs2) =>
    match cs2 with
    | 'e' :: t | 'E' :: t =>
      let t1 := match t with
        | '+' :: t2 => t2
        | '-' :: t2 => t2
        | _ => t
      if (t1.takeWhile isDigit).isEmpty then none
      else some (false, t1.dropWhile isDigit)
    | _ => some (isInt1, cs2)

/-- JSON number: `-? (0 | [1-9][0-9]*) frac? exp?`. Returns whether the
literal is a plain integer (only then can it decode into the `int64` field)
and the rest of the input. -/
def jsonNumber (cs : List Char) : Option (Bool × List Char) :=
  let cs1 := match cs with
    | '-' :: t => t
    | _ => cs
  match cs1 with
  | '0' :: t => jsonNumberTail t
  | c :: t =>
    if '1' ≤ c && c ≤ '9' then jsonNumberTail (t.dropWhile isDigit)
    else none
  | [] => none

/-- One JSON value, classified as far as `fishEntry` decoding cares:
a string, a plain-integer number, `null`, or another scalar (`true`,
`false`, fractional/exponent numbers). Nested objects and arrays are
rejected — `encoding/json` would accept and discard them in unknown fields,
but fish history records are flat, and no claim exercises such lines. -/
def jsonValue (cs : List Char) : Option (JsonVal × List Char) :=
  match cs with
  | '"' :: rest => (jsonString rest).map (fun p => (JsonVal.str p.1, p.2))
  | 't' :: 'r' :: 'u' :: 'e' :: r => some (JsonVal.other, r)
  | 'f' :: 'a' :: 'l' :: 's' :: 'e' :: r => some (JsonVal.other, r)
  | 'n' :: 'u' :: 'l' :: 'l' :: r => some (JsonVal.nullv, r)
  | _ =>
    (jsonNumber cs).map (fun p => (if p.1 then JsonVal.intv else JsonVal.other, p.2))

/-- The `"key": value` pair list of a JSON object, decoding into
`fishEntry{Cmd string `json:"cmd"`; When int64 `json:"when"`}` as
`encoding/json` does: keys match case-insensitively, later duplicates
overwrite, unknown keys are discarded, `null` leaves a field untouched, and
a type mismatch on `cmd` or `when` is a decode error. Returns the decoded
`Cmd` value and the rest after the closing brace. The fuel argument only
bounds the recursion; each pair consumes at least one character, so
`cs.length + 1` is always enough. -/
def jsonPairs (fuel : Nat) (cs : List Char) (cmd : Option (List Char)) :
    Option (Option (List Char) × List Char) :=
  match fuel with
  | 0 => none
  | fuel + 1 =>
    match skipJsonWs cs with
    | '"' :: rest =>
      match jsonString rest with
      | none => none
      | some (key, rest1) =>
        match skipJsonWs rest1 with
        | ':' :: rest2 =>
          match jsonValue (skipJsonWs rest2) with
          | none => none
          | some (v, rest3) =>
            let keyL := key.map asciiLower
            let cmd1 : Option (Option (List Char)) :=
              if keyL = "cmd".data then
                match v with
                | JsonVal.str s => some (some s)
                | JsonVal.nullv => some cmd
                | _ => none
              else if keyL = "when".data then
                match v with
                | JsonVal.intv => some cmd
                | JsonVal.nullv => some cmd
                | _ => none
              else some cmd
            match cmd1 with
            | none => none
            | some cmd2 =>
              match skipJsonWs rest3 with
              | ',' :: rest4 => jsonPairs fuel rest4 cmd2
              | '}' :: rest4 => some (cmd2, rest4)
              | _ => none
        | _ => none
    | _ => none

/-- `json.Unmarshal([]byte(line), &entry)` for a fish history line:
`some c` means the decode succeeded with `entry.Cmd = c` (possibly empty),
`none` means it failed. A top-level value that is not an object is treated
as failure; for the only non-object value Go would accept (`null`, which
leaves `Cmd` empty) the caller's `entry.Cmd != ""` test fails too, so both
routes continue with the regexp fallback. -/
def fishJsonCmd (line : String) : Option String :=
  match skipJsonWs line.data with
  | '{' :: rest =>
    match skipJsonWs rest with
    | '}' :: rest1 =>
      if (skipJsonWs rest1).isEmpty then some "" else none
    | _ =>
      match jsonPairs (rest.length + 1) rest none with
      | some (cmd, rest1) =>
        if (skipJsonWs rest1).isEmpty then some ⟨cmd.getD []⟩ else none
      | none => none
  | _ => none

/-- `regexp.FindStringSubmatch` for `- cmd: (.+)`: the leftmost occurrence
of the literal `"- cmd: "` followed by at least one non-newline character;
the capture runs to the end of the line (or the next newline). -/
def fishCmdCapture : List Char → Option (List Char)
  | [] => none
  | c :: cs =>
    if ['-', ' ', 'c', 'm', 'd', ':', ' '].isPrefixOf (c :: cs) then
      let cap := ((c :: cs).drop 7).takeWhile (fun ch => ch != '\n')
      if cap.isEmpty then fishCmdCapture cs else some cap
    else fishCmdCapture cs

/-- One iteration of the fish-history scan loop: `none` when the line yields
no command (blank line, or neither decode strategy applies), `some cmd`
otherwise. The JSON command is kept verbatim; the regexp capture is trimmed
(and is appended even when it trims to the empty string, as in the code). -/
def fishParseLine (line : String) : Option String :=
  if trimSpace line = "" then none
  else
    match fishJsonCmd line with
    | some c => if c ≠ "" then some c else (fishCmdCapture line.data).map (fun cap => trimSpace ⟨cap⟩)
    | none => (fishCmdCapture line.data).map (fun cap => trimSpace ⟨cap⟩)

/-- The shell dialect resolved from the `SHELL` environment value;
`unknown` is the fallback branch that reuses the bash format. -/
inductive Dialect where
  | bash
  | zsh
  | fish
  | unknown
deriving DecidableEq

/-- The dialect dispatch at the top of `GetShellHistory`: substring tests on
the `SHELL` value, in source order. -/
def resolveDialect (shell : String) : Dialect :=
  if goContains shell "zsh" then Dialect.zsh
  else if goContains shell "bash" then Dialect.bash
  else if goContains shell "fish" then Dialect.fish
  else Dialect.unknown

/-- `bufio.MaxScanTokenSize`: the default scanner buffer limit (64 KiB).
`GetShellHistory` and `parseFishHistory` build their scanners with
`bufio.NewScanner(file)` and never call `Scanner.Buffer`, so this default
applies. -/
def maxScanTokenSize : Nat := 65536

/-- Whether scanning the lines aborts with `bufio.ErrTooLong`: some line
exceeds the default token size. (Behaviour exactly at 65536 bytes depends
on buffering details; every claim stays clear of that boundary.) -/
def anyTooLong (lines : List String) : Bool :=
  lines.any (fun l => decide (maxScanTokenSize < goLen l))

/-- The scan loop of `GetShellHistory`: apply the dialect's line parser and
keep the command when `ok && cmd != ""`. -/
def scanCommands (parseLine : String → String × Bool) (lines : List String) : List String :=
  lines.filterMap (fun l =>
    let r := parseLine l
    if r.2 && r.1 != "" then some r.1 else none)

/-- The retention logic shared by `GetShellHistory` and `parseFishHistory`:
`limit == -1` keeps everything; otherwise, when more than `limit` commands
were parsed, keep the last `limit` (`commands[len(commands)-limit:]`).
For `limit < -1` the Go slice expression would panic; the model is only
used for `limit ≥ -1`. -/
def applyLimit (limit : Int) (commands : List String) : List String :=
  if limit = -1 then commands
  else if limit < (commands.length : Int) then
    commands.drop (commands.length - limit.toNat)
  else commands

/-- The sentinel returned when the bash/zsh history file is missing. -/
def noHistorySentinel : String := "No history file found"

/-- The sentinel returned when the fish history file is missing. -/
def noFishHistorySentinel : String := "No fish history file found"

/-- The bash/zsh/fallback body of `GetShellHistory`, after the history file
path is resolved: missing file yields the sentinel, an over-long line makes
the scanner fail (`scanner.Err() != nil` returns the error), otherwise the
parsed commands with the retention limit applied. -/
def getShellHistoryCore (parseLine : String → String × Bool) (fileExists : Bool)
    (lines : List String) (limit : Int) : Except String (List String) :=
  if !fileExists then Except.ok [noHistorySentinel]
  else if anyTooLong lines then Except.error "bufio.Scanner: token too long"
  else Except.ok (applyLimit limit (scanCommands parseLine lines))

/-- `parseFishHistory`: its own missing-file sentinel, the same default
scanner limit, per-line JSON-then-regexp decoding, and the same retention
logic. -/
def parseFishHistory (fileExists : Bool) (lines : List String) (limit : Int) :
    Except String (List String) :=
  if !fileExists then Except.ok [noFishHistorySentinel]
  else if anyTooLong lines then Except.error "bufio.Scanner: token too long"
  else Except.ok (applyLimit limit (lines.filterMap fishParseLine))

/-- `GetShellHistory`, after shell detection: each dialect reads its history
file with its line parser; the fish dialect is dispatched to
`parseFishHistory` before the main existence check, and the unknown-shell
fallback reuses the bash parser. -/
def getShellHistory (d : Dialect) (fileExists : Bool) (lines : List String)
    (limit : Int) : Except String (List String) :=
  match d with
  | Dialect.zsh => getShellHistoryCore parseZshHistoryLine fileExists lines limit
  | Dialect.bash => getShellHistoryCore parseBashHistoryLine fileExists lines limit
  | Dialect.fish => parseFishHistory fileExists lines limit
  | Dialect.unknown => getShellHistoryCore parseBashHistoryLine fileExists lines limit

end Roastme

deriving instance DecidableEq for Except


namespace Roastme

/-! ## Claim-side definitions

Definitions in this section restate spec wording (for refutation or
comparison) or package the model for the theorem statements; they are not
translations of further Go code. -/

/-- The command list a dialect's scan produces before the retention limit is
applied (the content of `commands` after the scan loop). -/
def parsedCommands (d : Dialect) (lines : List String) : List String :=
  match d with
  | Dialect.zsh => scanCommands parseZshHistoryLine lines
  | Dialect.bash => scanCommands parseBashHistoryLine lines
  | Dialect.unknown => scanCommands parseBashHistoryLine lines
  | Dialect.fish => lines.filterMap fishParseLine

/-- Modelled from the spec's words for the timestamped dialect: the three
strategies tried in order, "the first one that yields a NON-EMPTY result
wins". Used to compare the spec's chain with the code's. -/
def specZshFirstNonEmpty (line : String) : String :=
  let s1 := match zshFind line.data with
    | some cap => trimSpace ⟨cap⟩
    | none => ""
  if s1 ≠ "" then s1
  else
    let s2 :=
      if line.data.contains ';' then
        trimSpace ⟨(line.data.dropWhile (fun ch => ch != ';')).tail⟩
      else ""
    if s2 ≠ "" then s2 else trimSpace line

/-- The three zsh-line strategies as an ordered list of partial parsers
(spec §9's "ordered list of parser strategies"): regexp extraction, split
at the first `';'`, whole trimmed line. A strategy returns `none` when its
FORMAT does not apply — its result may still be the empty string. -/
def zshStrategies : List (String → Option String) :=
  [fun line => (zshFind line.data).map (fun cap => trimSpace ⟨cap⟩),
   fun line =>
     if line.data.contains ';' then
       some (trimSpace ⟨(line.data.dropWhile (fun ch => ch != ';')).tail⟩)
     else none,
   fun line => some (trimSpace line)]

/-- First applicable strategy of an ordered chain. -/
def firstApplicable (strategies : List (String → Option String)) (line : String) :
    Option String :=
  match strategies with
  | [] => none
  | s :: rest =>
    match s line with
    | some r => some r
    | none => firstApplicable rest line

/-- The ordering the claim asserts for the repeated-command list: strictly
descending count, ties strictly ascending on the base command. -/
def specRepeatedOrder (l : List CommandCount) : Prop :=
  l.Chain' (fun p q => q.Count < p.Count ∨ (p.Count = q.Count ∧ p.Command < q.Command))

/-- The base commands of a command sequence, in order: the first whitespace
field of each command, skipping commands with no fields. -/
def basesOf (commands : List String) : List String :=
  commands.filterMap (fun cmd => (goFields cmd).head?)

/-- The value an association-list tally gives a key (first matching entry,
0 when absent). Proof device for reasoning about `commandCounts`. -/
def countIn (acc : List (String × Nat)) (k : String) : Nat :=
  match acc with
  | [] => 0
  | (k', n) :: rest => if k' = k then n else countIn rest k

end Roastme

namespace Roastme

/-! ## Helper lemmas -/

lemma getShellHistory_ok (d : Dialect) (lines : List String) (limit : Int)
    (h : anyTooLong lines = false) :
    getShellHistory d true lines limit =
      Except.ok (applyLimit limit (parsedCommands d lines)) := by
  cases d <;>
    simp [getShellHistory, getShellHistoryCore, parseFishHistory, parsedCommands, h]

lemma applyLimit_neg_one (commands : List String) :
    applyLimit (-1) commands = commands := by
  simp [applyLimit]

lemma applyLimit_zero (commands : List String) :
    applyLimit 0 commands = [] := by
  unfold applyLimit
  rcases commands with _ | ⟨a, t⟩
  · simp
  · simp [Int.toNat_zero]

end Roastme

namespace Roastme

/-! ## Claims about the history reader -/

/-- Claim C10 (confirmed): with the resolved history file present and
readable, every dialect's path returns the empty command sequence and no
error for `limit == 0` — the retention step keeps the last 0 commands. -/
theorem limit_zero_returns_empty (d : Dialect) (lines : List String)
    (h : anyTooLong lines = false) :
    getShellHistory d true lines 0 = Except.ok [] := by
  rw [getShellHistory_ok d lines 0 h, applyLimit_zero]

/-- Witness for C10: the fish path on a one-record file with `limit = 0`. -/
theorem limit_zero_returns_empty_witness :
    anyTooLong ["- cmd: foo"] = false ∧
      getShellHistory Dialect.fish true ["- cmd: foo"] 0 = Except.ok [] :=
  ⟨by decide, limit_zero_returns_empty Dialect.fish ["- cmd: foo"] (by decide)⟩

/-- Counterexample for C4: on the fish dialect the missing-file result is
the one-element sequence "No fish history file found", not the claimed
sentinel "No history file found". -/
theorem fish_sentinel_differs :
    getShellHistory Dialect.fish false [] 7 =
        Except.ok ["No fish history file found"] ∧
      ("No fish history file found" : String) ≠ "No history file found" := by
  exact ⟨by decide, by decide⟩

/-- Claim C4 (corrected): for every dialect a missing history file yields a
one-element sentinel sequence and no error; bash, zsh and the unknown-shell
fallback use "No history file found", while fish uses its own sentinel
"No fish history file found". -/
theorem missing_file_sentinels (lines : List String) (limit : Int) :
    getShellHistory Dialect.bash false lines limit =
        Except.ok ["No history file found"] ∧
      getShellHistory Dialect.zsh false lines limit =
        Except.ok ["No history file found"] ∧
      getShellHistory Dialect.unknown false lines limit =
        Except.ok ["No history file found"] ∧
      getShellHistory Dialect.fish false lines limit =
        Except.ok ["No fish history file found"] := by
  refine ⟨?_, ?_, ?_, ?_⟩ <;>
    simp [getShellHistory, getShellHistoryCore, parseFishHistory,
      noHistorySentinel, noFishHistorySentinel]

/-- Claim C2 (code_bug): the current `parseBashHistoryLine` only trims, so a
bash timestamp comment line starting with `#` is returned as a command
instead of being dropped (trimming and empty-line dropping do work). -/
theorem bash_hash_lines_not_dropped :
    parseBashHistoryLine "#1690000000" = ("#1690000000", true) ∧
      getShellHistory Dialect.bash true ["  ls -la ", "", "#1690000000"] (-1) =
        Except.ok ["ls -la", "#1690000000"] := by decide

/-- Counterexample for C5: on the line ": 123:0;" the regexp matches with an
empty capture, so the code returns the empty string (the line is then
discarded), while the claim's "first non-empty result wins" chain would
fall through to the whole trimmed line. -/
theorem zsh_first_match_not_first_nonempty :
    parseZshHistoryLine ": 123:0;" = ("", true) ∧
      specZshFirstNonEmpty ": 123:0;" = ": 123:0;" ∧
      (parseZshHistoryLine ": 123:0;").1 ≠ specZshFirstNonEmpty ": 123:0;" := by
  decide

/-- Claim C5 (corrected): the three strategies are tried in the fixed order
regexp / split-at-';' / whole-line, and the first one whose FORMAT applies
determines the (possibly empty) result — not the first non-empty result;
the two example lines of the claim behave as stated. -/
theorem zsh_strategy_chain_first_match :
    (∀ line, firstApplicable zshStrategies line =
        some (parseZshHistoryLine line).1 ∧ (parseZshHistoryLine line).2 = true) ∧
      parseZshHistoryLine ": 1690000000:0;ls -la" = ("ls -la", true) ∧
      parseZshHistoryLine "not-a-timestamp-line" = ("not-a-timestamp-line", true) := by
  refine ⟨fun line => ?_, by decide, by decide⟩
  simp only [zshStrategies, firstApplicable]
  cases h : zshFind line.data with
  | some cap => simp [parseZshHistoryLine, h]
  | none =>
    by_cases hc : ';' ∈ line.data
    · simp [parseZshHistoryLine, h, hc]
    · simp [parseZshHistoryLine, h, hc]

end Roastme

namespace Roastme

lemma applyLimit_pos (limit : Int) (hpos : 0 < limit) (commands : List String) :
    ((applyLimit limit commands).length : Int) ≤ limit ∧
      applyLimit limit commands <:+ commands ∧
      (applyLimit limit commands).length = min limit.toNat commands.length := by
  have hne : ¬ limit = -1 := by omega
  unfold applyLimit
  rw [if_neg hne]
  by_cases hlt : limit < (commands.length : Int)
  · rw [if_pos hlt]
    refine ⟨?_, List.drop_suffix _ _, ?_⟩
    · rw [List.length_drop]; omega
    · rw [List.length_drop]; omega
  · rw [if_neg hlt]
    exact ⟨by omega, List.suffix_rfl, by omega⟩

/-- Claim C3 (confirmed): with the history file present and readable, every
dialect returns, without error, exactly the most recent `min(limit, parsed)`
commands — a suffix of the parsed history, preserving chronological order —
for `limit > 0`, and the entire parsed history for `limit == -1`. -/
theorem history_limit_retention (d : Dialect) (lines : List String) (limit : Int)
    (h : anyTooLong lines = false) :
    (0 < limit →
      ∃ r, getShellHistory d true lines limit = Except.ok r ∧
        (r.length : Int) ≤ limit ∧ r <:+ parsedCommands d lines ∧
        r.length = min limit.toNat (parsedCommands d lines).length) ∧
    (limit = -1 →
      getShellHistory d true lines limit = Except.ok (parsedCommands d lines)) := by
  constructor
  · intro hpos
    obtain ⟨h1, h2, h3⟩ := applyLimit_pos limit hpos (parsedCommands d lines)
    exact ⟨_, getShellHistory_ok d lines limit h, h1, h2, h3⟩
  · intro hm1
    subst hm1
    rw [getShellHistory_ok d lines (-1) h, applyLimit_neg_one]

/-- Witness for C3: three bash lines with `limit = 2` keep the last two. -/
theorem history_limit_retention_witness :
    anyTooLong ["a", "b", "c"] = false ∧
      ((0 < (2 : Int) →
        ∃ r, getShellHistory Dialect.bash true ["a", "b", "c"] 2 = Except.ok r ∧
          (r.length : Int) ≤ 2 ∧ r <:+ parsedCommands Dialect.bash ["a", "b", "c"] ∧
          r.length = min (2 : Int).toNat (parsedCommands Dialect.bash ["a", "b", "c"]).length) ∧
      ((2 : Int) = -1 →
        getShellHistory Dialect.bash true ["a", "b", "c"] 2 =
          Except.ok (parsedCommands Dialect.bash ["a", "b", "c"]))) :=
  ⟨by decide, history_limit_retention Dialect.bash ["a", "b", "c"] 2 (by decide)⟩

lemma len_utf8_replicate (n : Nat) :
    ((List.replicate n 'a').flatMap utf8Bytes).length = n := by
  induction n with
  | zero => rfl
  | succ k ih =>
    have ha : utf8Bytes 'a' = [97] := rfl
    simp [List.replicate_succ, ha, ih]

/-- Claim C6 (code_bug): `GetShellHistory` never configures the scanner
buffer, so a single 70000-byte line — longer than the 64 KiB default but
well under 1 MiB — makes the scan fail with `bufio.ErrTooLong` and the
function returns an error instead of parsing the line. -/
theorem long_line_errors_without_buffer :
    goLen ⟨List.replicate 70000 'a'⟩ = 70000 ∧
      70000 ≤ 1048576 ∧
      getShellHistory Dialect.bash true [⟨List.replicate 70000 'a'⟩] (-1) =
        Except.error "bufio.Scanner: token too long" := by
  have hl : goLen (⟨List.replicate 70000 'a'⟩ : String) = 70000 := by
    show ((List.replicate 70000 'a').flatMap utf8Bytes).length = 70000
    exact len_utf8_replicate 70000
  have htl : anyTooLong [(⟨List.replicate 70000 'a'⟩ : String)] = true := by
    unfold anyTooLong
    simp only [List.any_cons, List.any_nil, Bool.or_false, decide_eq_true_eq]
    rw [hl]
    norm_num [maxScanTokenSize]
  refine ⟨hl, by norm_num, ?_⟩
  unfold getShellHistory getShellHistoryCore
  rw [htl]
  simp

end Roastme

namespace Roastme

/-! ## Claims about the pattern analyzer -/

/-- Counterexample for C7: 41 copies of 'é' form a 41-character command with
no pipes or semicolons — not complex by the claim's character reading — yet
the code collects it, because its UTF-8 byte length is 82 > 80. -/
theorem complex_char_length_counterexample :
    (analyzeHistory [(⟨List.replicate 41 'é'⟩ : String)]).ComplexCommands =
        [(⟨List.replicate 41 'é'⟩ : String)] ∧
      (⟨List.replicate 41 'é'⟩ : String).length = 41 ∧
      goCount ⟨List.replicate 41 'é'⟩ 124 = 0 ∧
      goCount ⟨List.replicate 41 'é'⟩ 59 = 0 := by decide

/-- Claim C7 (corrected): a command is complex exactly when it has more than
2 `'|'` bytes, more than 2 `';'` bytes, or a BYTE length (Go `len`) over 80;
qualifying commands are collected in encounter order (a sublist of the
input), and the claim's ASCII boundary examples hold. -/
theorem complex_commands_byte_length :
    (∀ commands cmd, cmd ∈ (analyzeHistory commands).ComplexCommands ↔
        cmd ∈ commands ∧
          (2 < goCount cmd 124 ∨ 2 < goCount cmd 59 ∨ 80 < goLen cmd)) ∧
      (∀ commands, (analyzeHistory commands).ComplexCommands.Sublist commands) ∧
      (analyzeHistory [(⟨List.replicate 80 'x'⟩ : String)]).ComplexCommands = [] ∧
      (analyzeHistory [(⟨List.replicate 81 'x'⟩ : String)]).ComplexCommands =
        [(⟨List.replicate 81 'x'⟩ : String)] ∧
      (analyzeHistory ["a|b|c|d"]).ComplexCommands = ["a|b|c|d"] ∧
      (analyzeHistory ["a|b|c"]).ComplexCommands = [] := by
  refine ⟨?_, ?_, by decide, by decide, by decide, by decide⟩
  · intro commands cmd
    show cmd ∈ complexCommands commands ↔ _
    simp [complexCommands, List.mem_filter, isComplex, or_assoc]
  · intro commands
    exact List.filter_sublist _

lemma cdLsCount_eq_filter (commands : List String) :
    cdLsCount commands = (commands.filter isNavCommand).length := by
  suffices h : ∀ (l : List String) (n : Nat),
      l.foldl (fun n cmd => if isNavCommand cmd then n + 1 else n) n =
        n + (l.filter isNavCommand).length by
    simpa [cdLsCount] using h commands 0
  intro l
  induction l with
  | nil => intro n; simp
  | cons a t ih =>
    intro n
    cases ha : isNavCommand a <;>
      simp [List.filter_cons, ha, List.foldl_cons, ih]
    omega

/-- Claim C8 (confirmed): the indecisiveness flag is set exactly when the
number of commands starting with "cd " or "ls " or equal to "ls" is strictly
more than 40% of the total (modelled exactly as `5*count > 2*total`); the
4-of-10, 5-of-10 and empty boundary cases behave as claimed. -/
theorem indecisive_iff_forty_percent :
    (∀ commands, (analyzeHistory commands).Indecisive = true ↔
        2 * commands.length < 5 * (commands.filter isNavCommand).length) ∧
      (analyzeHistory
        ["cd a", "cd b", "cd c", "cd d", "x", "x", "x", "x", "x", "x"]).Indecisive = false ∧
      (analyzeHistory
        ["cd a", "cd b", "cd c", "cd d", "ls", "x", "x", "x", "x", "x"]).Indecisive = true ∧
      (analyzeHistory []).Indecisive = false := by
  refine ⟨?_, by decide, by decide, by decide⟩
  intro commands
  show indecisive commands = true ↔ _
  simp [indecisive, cdLsCount_eq_filter]

/-- Counterexample for C9: "cd é" followed by "cd è" do not share their
first 4 CHARACTERS (é ≠ è), yet the code appends "cd é" to the failed list,
because the two commands share their first 4 BYTES (the slice
`prev[:4]` cuts the 'é' in half and both continuation sequences start with
the byte 0xC3). -/
theorem failed_commands_byte_prefix_counterexample :
    (analyzeHistory ["cd é", "cd è"]).FailedCommands = ["cd é"] ∧
      ("cd è").data.take 4 ≠ ("cd é").data.take 4 ∧
      goHasPrefix "cd é" "cd " = true := by decide

lemma take_min_length {α : Type} (l : List α) (n : Nat) :
    l.take (min l.length n) = l.take n := by
  rcases le_total l.length n with h | h
  · rw [min_eq_left h, List.take_length, List.take_of_length_le h]
  · rw [min_eq_right h]

lemma sharesPrefix4_take4 (p c : String) :
    sharesPrefix4 p c = ((goBytes p).take 4).isPrefixOf (goBytes c) := by
  rw [sharesPrefix4, take_min_length]

lemma failedCommands_eq_zip (l : List String) :
    failedCommands l = (l.zip l.tail).filterMap
      (fun p =>
        if isCorrectionCandidate p.1 && sharesPrefix4 p.1 p.2 then some p.1
        else none) := by
  induction l with
  | nil => rfl
  | cons a t ih =>
    cases t with
    | nil => rfl
    | cons b t2 =>
      show (if isCorrectionCandidate a && sharesPrefix4 a b then [a] else []) ++
          failedCommands (b :: t2) = _
      rw [ih]
      simp only [List.tail_cons, List.zip_cons_cons, List.filterMap_cons]
      cases h : isCorrectionCandidate a && sharesPrefix4 a b <;> simp [h]

/-- Claim C9 (corrected): an adjacent pair contributes `previous` to the
failed list exactly when `previous` starts with "cd ", "mkdir " or "git "
and `current` starts with the first `min(len(previous), 4)` BYTES of
`previous` (Go slices and compares bytes, not characters); no other pair
contributes, and contributions appear in chronological pair order. -/
theorem failed_commands_adjacent_pairs :
    (∀ commands, (analyzeHistory commands).FailedCommands =
        (commands.zip commands.tail).filterMap
          (fun p =>
            if (goHasPrefix p.1 "cd " || goHasPrefix p.1 "mkdir " ||
                  goHasPrefix p.1 "git ") &&
                ((goBytes p.1).take 4).isPrefixOf (goBytes p.2) then
              some p.1
            else none)) ∧
      (analyzeHistory ["git sttaus", "git status"]).FailedCommands = ["git sttaus"] ∧
      (analyzeHistory ["ls -la", "ls -lb"]).FailedCommands = [] ∧
      (analyzeHistory ["cd aa", "cd ab"]).FailedCommands = ["cd aa"] := by
  refine ⟨?_, by decide, by decide, by decide⟩
  intro commands
  show failedCommands commands = _
  rw [failedCommands_eq_zip]
  simp only [isCorrectionCandidate, sharesPrefix4_take4]

end Roastme

namespace Roastme

/-! ## Claim C1: the repeated-command list -/

lemma countIn_bumpCount (acc : List (String × Nat)) (c k : String) :
    countIn (bumpCount acc c) k =
      if k = c then countIn acc k + 1 else countIn acc k := by
  induction acc with
  | nil =>
    by_cases h : k = c
    · subst h; simp [bumpCount, countIn]
    · have h2 : ¬ c = k := fun hh => h hh.symm
      simp [bumpCount, countIn, h, h2]
  | cons hd tl ih =>
    obtain ⟨k1, m⟩ := hd
    by_cases hkc : k1 = c
    · subst hkc
      by_cases hk : k1 = k
      · subst hk
        simp [bumpCount, countIn]
      · have hk2 : ¬ k = k1 := fun hh => hk hh.symm
        simp [bumpCount, countIn, hk, hk2]
    · by_cases hk : k1 = k
      · subst hk
        have hck : ¬ k1 = c := hkc
        simp [bumpCount, countIn, hck, fun hh : k1 = c => hck hh]
      · simp [bumpCount, countIn, hkc, hk, ih]

lemma mem_keys_bumpCount (acc : List (String × Nat)) (c k : String) :
    k ∈ (bumpCount acc c).map Prod.fst ↔ k ∈ acc.map Prod.fst ∨ k = c := by
  induction acc with
  | nil => simp [bumpCount]
  | cons hd tl ih =>
    obtain ⟨k1, m⟩ := hd
    by_cases hkc : k1 = c
    · subst hkc
      simp [bumpCount]
      tauto
    · simp [bumpCount, hkc, ih]
      tauto

lemma keys_nodup_bumpCount (acc : List (String × Nat)) (c : String)
    (h : (acc.map Prod.fst).Nodup) : ((bumpCount acc c).map Prod.fst).Nodup := by
  induction acc with
  | nil => simp [bumpCount]
  | cons hd tl ih =>
    obtain ⟨k1, m⟩ := hd
    rw [List.map_cons] at h
    obtain ⟨h1, h2⟩ := List.nodup_cons.mp h
    by_cases hkc : k1 = c
    · subst hkc
      simpa [bumpCount] using h
    · simp only [bumpCount, if_neg hkc, List.map_cons, List.nodup_cons,
        mem_keys_bumpCount]
      exact ⟨fun hh => hh.elim h1 hkc, ih h2⟩

lemma countIn_foldl_bumpCount (l : List String) :
    ∀ (acc : List (String × Nat)) (k : String),
      countIn (l.foldl bumpCount acc) k = countIn acc k + l.count k := by
  induction l with
  | nil => intro acc k; simp
  | cons b t ih =>
    intro acc k
    rw [List.foldl_cons, ih, countIn_bumpCount, List.count_cons]
    by_cases h : k = b
    · subst h; simp; omega
    · have h2 : (b == k) = false := beq_eq_false_iff_ne.mpr (fun hh => h hh.symm)
      simp [h, h2]

lemma mem_keys_foldl_bumpCount (l : List String) :
    ∀ (acc : List (String × Nat)) (k : String),
      k ∈ (l.foldl bumpCount acc).map Prod.fst ↔ k ∈ acc.map Prod.fst ∨ k ∈ l := by
  induction l with
  | nil => intro acc k; simp
  | cons b t ih =>
    intro acc k
    rw [List.foldl_cons, ih, mem_keys_bumpCount]
    simp [List.mem_cons]
    tauto

lemma keys_nodup_foldl_bumpCount (l : List String) :
    ∀ acc, (acc.map Prod.fst).Nodup →
      ((l.foldl bumpCount acc).map Prod.fst).Nodup := by
  induction l with
  | nil => intro acc h; exact h
  | cons b t ih => intro acc h; exact ih _ (keys_nodup_bumpCount acc b h)

lemma mem_iff_countIn (acc : List (String × Nat)) (k : String) (n : Nat)
    (h : (acc.map Prod.fst).Nodup) :
    (k, n) ∈ acc ↔ k ∈ acc.map Prod.fst ∧ countIn acc k = n := by
  induction acc with
  | nil => simp [countIn]
  | cons hd tl ih =>
    obtain ⟨k1, m⟩ := hd
    rw [List.map_cons] at h
    obtain ⟨h1, h2⟩ := List.nodup_cons.mp h
    rw [List.map_cons]
    constructor
    · intro hmem
      rcases List.mem_cons.mp hmem with heq | htl
      · rw [Prod.ext_iff] at heq
        obtain ⟨hk, hn⟩ := heq
        subst hk; subst hn
        simp [countIn]
      · have hkmem : k ∈ tl.map Prod.fst := List.mem_map.mpr ⟨(k, n), htl, rfl⟩
        have hk1k : ¬ k1 = k := fun hh => h1 (hh ▸ hkmem)
        refine ⟨List.mem_cons.mpr (Or.inr hkmem), ?_⟩
        simp only [countIn, if_neg hk1k]
        exact (((ih h2).mp htl)).2
    · rintro ⟨hmem, hcount⟩
      rcases List.mem_cons.mp hmem with hk | hmem2
      · subst hk
        simp only [countIn, if_pos rfl] at hcount
        subst hcount
        exact List.mem_cons.mpr (Or.inl rfl)
      · have hk1k : ¬ k1 = k := fun hh => h1 (hh ▸ hmem2)
        simp only [countIn, if_neg hk1k] at hcount
        exact List.mem_cons.mpr (Or.inr ((ih h2).mpr ⟨hmem2, hcount⟩))

lemma commandCounts_eq (commands : List String) :
    commandCounts commands = (basesOf commands).foldl bumpCount [] := by
  suffices h : ∀ acc,
      commands.foldl
        (fun acc cmd =>
          match goFields cmd with
          | [] => acc
          | baseCmd :: _ => bumpCount acc baseCmd) acc =
        (basesOf commands).foldl bumpCount acc from h []
  induction commands with
  | nil => intro acc; rfl
  | cons cmd t ih =>
    intro acc
    rw [List.foldl_cons]
    cases hf : goFields cmd with
    | nil =>
      have hb : basesOf (cmd :: t) = basesOf t := by
        simp [basesOf, List.filterMap_cons, hf]
      rw [hb]
      exact ih acc
    | cons b bs =>
      have hb : basesOf (cmd :: t) = b :: basesOf t := by
        simp [basesOf, List.filterMap_cons, hf]
      rw [hb, List.foldl_cons]
      exact ih (bumpCount acc b)

lemma mem_basesOf_ne_empty (commands : List String) (c : String)
    (h : c ∈ basesOf commands) : c ≠ "" := by
  rw [basesOf, List.mem_filterMap] at h
  obtain ⟨cmd, _, hc⟩ := h
  have hmem : c ∈ goFields cmd := List.mem_of_mem_head? hc
  rw [goFields, List.mem_map] at hmem
  obtain ⟨t, ht, rfl⟩ := hmem
  rw [List.mem_filter] at ht
  intro he
  have hdata : t = [] := congrArg String.data he
  rw [hdata] at ht
  simp at ht

lemma mem_map_mkCC (l : List (String × Nat)) (c : String) (n : Nat) :
    (⟨c, n⟩ : CommandCount) ∈
        l.map (fun p => (⟨p.1, p.2⟩ : CommandCount)) ↔ (c, n) ∈ l := by
  induction l with
  | nil => simp
  | cons hd tl ih =>
    obtain ⟨k, m⟩ := hd
    simp [ih, CommandCount.mk.injEq, Prod.ext_iff]

/-- Counterexample for C1: with base command "a" reaching count 4 before "b"
reaches count 5, the code (which applies no sort; hash-map iteration order
is modelled as first-insertion order) emits [(a,4), (b,5)], which is not in
the claimed descending-count order. -/
theorem repeated_commands_not_sorted :
    (analyzeHistory
        ["a 1", "a 2", "a 3", "a 4", "b", "b", "b", "b", "b"]).RepeatedCommands =
      [⟨"a", 4⟩, ⟨"b", 5⟩] ∧
      ¬ specRepeatedOrder [⟨"a", 4⟩, ⟨"b", 5⟩] := by
  constructor
  · decide
  · intro h
    have hrel := (List.chain'_cons.mp h).1
    rcases hrel with h1 | ⟨h2, _⟩
    · exact absurd h1 (by norm_num)
    · exact absurd h2 (by norm_num)

/-- Claim C1 (corrected): the repeated-command list contains exactly the
base commands whose occurrence count exceeds 3, each once and paired with
its count — but the code applies no sort, so the list is in the map's
(unspecified, here first-insertion) iteration order rather than the claimed
descending-count order. -/
theorem repeated_commands_membership :
    (∀ (commands : List String) (c : String) (n : Nat),
        (⟨c, n⟩ : CommandCount) ∈ (analyzeHistory commands).RepeatedCommands ↔
          3 < n ∧ n = (basesOf commands).count c) ∧
      ∀ commands : List String,
        ((analyzeHistory commands).RepeatedCommands.map CommandCount.Command).Nodup := by
  have hnodup : ∀ commands : List String,
      ((commandCounts commands).map Prod.fst).Nodup := by
    intro commands
    rw [commandCounts_eq]
    exact keys_nodup_foldl_bumpCount _ [] (by simp)
  constructor
  · intro commands c n
    show (⟨c, n⟩ : CommandCount) ∈ repeatedCommands commands ↔ _
    rw [repeatedCommands, mem_map_mkCC, List.mem_filter,
      mem_iff_countIn _ _ _ (hnodup commands), commandCounts_eq,
      countIn_foldl_bumpCount (basesOf commands) [] c,
      mem_keys_foldl_bumpCount (basesOf commands) [] c]
    constructor
    · rintro ⟨⟨hmem, hcount⟩, hq⟩
      simp only [Bool.and_eq_true, decide_eq_true_eq, Bool.not_eq_true',
        beq_eq_false_iff_ne] at hq
      refine ⟨hq.1, ?_⟩
      simpa [countIn] using hcount.symm
    · rintro ⟨h3, hn⟩
      have hcpos : 0 < (basesOf commands).count c := by omega
      have hcmem : c ∈ basesOf commands := List.count_pos_iff.mp hcpos
      refine ⟨⟨Or.inr hcmem, by simpa [countIn] using hn.symm⟩, ?_⟩
      simp [h3, mem_basesOf_ne_empty commands c hcmem]
  · intro commands
    show ((repeatedCommands commands).map CommandCount.Command).Nodup
    rw [repeatedCommands, List.map_map]
    have hcomp :
        (CommandCount.Command ∘ fun p : String × Nat => (⟨p.1, p.2⟩ : CommandCount)) =
          Prod.fst := rfl
    rw [hcomp]
    exact (hnodup commands).sublist ((List.filter_sublist _).map Prod.fst)

end Roastme
